import Mathlib

/-
Shallow embedding of the cache simulator in src/csim.c (nathanjunzhao/cache_simulator).

The C program simulates a set-associative cache with an LRU replacement policy,
counting hits, misses and evictions over a trace of Load/Store/Modify records.

Modelling conventions:
* `memory_address_t` (unsigned long long, 64 bits) is modelled as `Nat`; the
  bit operations used by the code (`>>`, `&`) only shrink values, so no
  wraparound arises on addresses.
* `unsigned long long` counters (`lru_counter`, `global_lru_counter`) are
  modelled as `Nat`.  Where a claim's truth depends on the 64-bit range of a
  counter the range appears as an explicit hypothesis (`≤ ULONG_MAX`).
* The C `int` arithmetic of the `pow` macro (line 22: `#define pow(two, shift)
  (1 << (shift))`) is modelled on 32-bit two's-complement integers; `1 << n`
  for `n ≥ 31` overflows the signed 32-bit range (undefined behaviour in C),
  and we model the conventional two's-complement wraparound of the
  mathematical shift.
* The per-set line arrays are Lean lists; the C loops bounded by
  `associativity` become structural recursion over the list, which coincides
  with the C code on every state whose groups have length `associativity`
  (the shape `init_cache` establishes).
* File I/O (`fscanf` parsing in `replay_trace`) is the external record source;
  the replayer is modelled on an already-parsed list of trace records.
-/

namespace Csim

/-- One cache line (C struct `cache_entry`, src/csim.c lines 28-32). -/
structure cache_entry_t where
  is_valid : Bool
  tag_value : Nat
  lru_counter : Nat
deriving DecidableEq

/-- The default (all-zero) cache entry, as written by `init_cache`
(src/csim.c lines 67-71). -/
def d0 : cache_entry_t := ⟨false, 0, 0⟩

/-- The mutable globals of the program that the cache model reads and writes
(src/csim.c lines 38-56): geometry parameters, the set-index mask, the cache
table, the global logical clock and the three counters. -/
structure SimState where
  set_index_bits : Nat
  block_offset_bits : Nat
  associativity : Nat
  set_index_mask : Nat
  cache_memory : List (List cache_entry_t)
  global_lru_counter : Nat
  total_hits : Nat
  total_misses : Nat
  total_evictions : Nat
deriving DecidableEq

/-- `ULONG_MAX` on the LP64 platform the program targets: `unsigned long`
is 64 bits, so `ULONG_MAX = 2^64 - 1` (used at src/csim.c line 89). -/
def ULONG_MAX : Nat := 2 ^ 64 - 1

/-- 32-bit two's-complement reinterpretation of a natural number. -/
def toSigned32 (n : Nat) : Int :=
  if n % 2 ^ 32 < 2 ^ 31 then ((n % 2 ^ 32 : Nat) : Int)
  else ((n % 2 ^ 32 : Nat) : Int) - 2 ^ 32

/-- C cast of a signed value to `unsigned int` (reduction mod `2^32`). -/
def toUnsigned32 (i : Int) : Nat := (i % 2 ^ 32).toNat

/-- C cast of a signed value to the unsigned 64-bit `memory_address_t`. -/
def toUnsigned64 (i : Int) : Nat := (i % 2 ^ 64).toNat

/-- The macro `#define pow(two, shift) (1 << (shift))` (src/csim.c line 22):
`1` is a 32-bit signed `int`, so the shift is 32-bit int arithmetic; for
`shift ≥ 31` the C shift overflows (UB), modelled as two's-complement
wraparound of the mathematical shift. -/
def pow (shift : Nat) : Int := toSigned32 (1 <<< shift)

/-- Result of a 32-bit signed int operation: wrap into two's-complement range. -/
def wrap32 (i : Int) : Int := toSigned32 (i % 2 ^ 32).toNat

/-- `number_of_sets = (unsigned int)pow(2, set_index_bits)` stored into an
`int` global (src/csim.c line 190). -/
def number_of_sets (set_index_bits : Nat) : Int :=
  toSigned32 (toUnsigned32 (pow set_index_bits))

/-- `block_size_bytes = (unsigned int)pow(2, block_offset_bits)` stored into an
`int` global (src/csim.c line 191). -/
def block_size_bytes (block_offset_bits : Nat) : Int :=
  toSigned32 (toUnsigned32 (pow block_offset_bits))

/-- `set_index_mask = (memory_address_t)(pow(2, set_index_bits) - 1)`
(src/csim.c line 75): the subtraction happens in 32-bit `int` arithmetic,
then the result is cast to the unsigned 64-bit address type. -/
def set_index_mask_of (set_index_bits : Nat) : Nat :=
  toUnsigned64 (wrap32 (pow set_index_bits - 1))

/-- `init_cache` (src/csim.c lines 58-76): `number_of_sets` groups of
`associativity` lines, all zeroed; the set-index mask is computed from the
`pow` macro.  The group count is passed in as `main` computed it. -/
def init_cache (set_index_bits block_offset_bits associativity n : Nat) : SimState :=
  { set_index_bits := set_index_bits
    block_offset_bits := block_offset_bits
    associativity := associativity
    set_index_mask := set_index_mask_of set_index_bits
    cache_memory := List.replicate n (List.replicate associativity d0)
    global_lru_counter := 1
    total_hits := 0
    total_misses := 0
    total_evictions := 0 }

/-- `set_index = (address >> block_offset_bits) & set_index_mask`
(src/csim.c line 92). -/
def set_index_of (st : SimState) (address : Nat) : Nat :=
  (address >>> st.block_offset_bits) &&& st.set_index_mask

/-- `tag_value = address >> (set_index_bits + block_offset_bits)`
(src/csim.c line 93). -/
def tag_of (st : SimState) (address : Nat) : Nat :=
  address >>> (st.set_index_bits + st.block_offset_bits)

/-- `current_cache_group = cache_memory[set_index]` (src/csim.c line 95). -/
def group_of (st : SimState) (address : Nat) : List cache_entry_t :=
  st.cache_memory.getD (set_index_of st address) []

/-- The hit test of src/csim.c lines 100-101: the line is valid and its tag
equals the target tag. -/
def line_matches (e : cache_entry_t) (tag : Nat) : Bool :=
  e.is_valid && (e.tag_value == tag)

/-- The hit-scan loop of `access_data` (src/csim.c lines 98-110): find the
first valid line with the target tag; on success return the group with that
line's `lru_counter` set to the current global clock value. -/
def hitScan (tag ctr : Nat) : List cache_entry_t → Option (List cache_entry_t)
  | [] => none
  | e :: rest =>
    if line_matches e tag then
      some ({ e with lru_counter := ctr } :: rest)
    else
      (hitScan tag ctr rest).map (e :: ·)

/-- The victim-selection loop of `access_data` (src/csim.c lines 116-123):
running minimum (seeded with `ULONG_MAX`) and its index (seeded with 0),
updated on strict improvement only. -/
def victimLoop : List cache_entry_t → Nat → Nat → Nat → Nat × Nat
  | [], _, min_lru_value, lru_line_index => (min_lru_value, lru_line_index)
  | e :: rest, i, min_lru_value, lru_line_index =>
    if min_lru_value > e.lru_counter then
      victimLoop rest (i + 1) e.lru_counter i
    else
      victimLoop rest (i + 1) min_lru_value lru_line_index

/-- The index of the victim line chosen on a miss (src/csim.c lines 89-90,
116-123). -/
def victimIndex (group : List cache_entry_t) : Nat :=
  (victimLoop group 0 ULONG_MAX 0).2

/-- `access_data` (src/csim.c lines 87-133): look the tag up in the target
set; on a hit refresh that line's recency and count a hit; on a miss count a
miss, pick the LRU victim, count an eviction if the victim was valid, and
overwrite the victim with the new tag. -/
def access_data (st : SimState) (address : Nat) : SimState :=
  match hitScan (tag_of st address) st.global_lru_counter (group_of st address) with
  | some updated_group =>
      { st with
        cache_memory := st.cache_memory.set (set_index_of st address) updated_group
        global_lru_counter := st.global_lru_counter + 1
        total_hits := st.total_hits + 1 }
  | none =>
      { st with
        cache_memory := st.cache_memory.set (set_index_of st address)
          ((group_of st address).set (victimIndex (group_of st address))
            ⟨true, tag_of st address, st.global_lru_counter⟩)
        global_lru_counter := st.global_lru_counter + 1
        total_misses := st.total_misses + 1
        total_evictions := st.total_evictions +
          if ((group_of st address).getD (victimIndex (group_of st address)) d0).is_valid
          then 1 else 0 }

/-- Parsed trace-record kinds (the `%c` command character of src/csim.c
line 143): `L`, `S`, `M`, and anything else. -/
inductive TraceCmd where
  | L
  | S
  | M
  | other
deriving DecidableEq

/-- One parsed trace record: command character, address, size (the size is
read by `fscanf` but never used by the cache model). -/
structure TraceRecord where
  cmd : TraceCmd
  address : Nat
  size : Int
deriving DecidableEq

/-- One iteration of the `replay_trace` loop (src/csim.c lines 143-150):
`L` and `S` issue one access, `M` issues two accesses to the same address,
anything else is skipped. -/
def replay_step (st : SimState) (r : TraceRecord) : SimState :=
  match r.cmd with
  | TraceCmd.L => access_data st r.address
  | TraceCmd.S => access_data st r.address
  | TraceCmd.M => access_data (access_data st r.address) r.address
  | TraceCmd.other => st

/-- `replay_trace` (src/csim.c lines 135-153) on an already-parsed record
list. -/
def replay_trace (st : SimState) (trace : List TraceRecord) : SimState :=
  trace.foldl replay_step st

/-- The only pre-simulation check of `main` (src/csim.c lines 184-187):
exit when a required command-line argument is missing, i.e. when one of the
(atoi-parsed, hence possibly negative) integer arguments is zero or the trace
filename was not given. -/
def missing_arg_check (set_index_bits associativity block_offset_bits : Int)
    (trace_present : Bool) : Bool :=
  (set_index_bits == 0) || (associativity == 0) || (block_offset_bits == 0) ||
    !trace_present

/-- The tail of `main` (src/csim.c lines 183-201): if the argument check
fires the program exits before any access (`none`); otherwise it computes the
geometry, initializes the cache and replays the trace. -/
def main_run (set_index_bits associativity block_offset_bits : Int)
    (trace_present : Bool) (trace : List TraceRecord) : Option SimState :=
  if missing_arg_check set_index_bits associativity block_offset_bits trace_present then
    none
  else
    some (replay_trace
      (init_cache set_index_bits.toNat block_offset_bits.toNat associativity.toNat
        (number_of_sets set_index_bits.toNat).toNat)
      trace)

/-- Number of Load/Store records in a trace. -/
def is_load_or_store (r : TraceRecord) : Bool :=
  match r.cmd with
  | TraceCmd.L => true
  | TraceCmd.S => true
  | _ => false

/-- Whether a record is a Modify record. -/
def is_modify (r : TraceRecord) : Bool :=
  match r.cmd with
  | TraceCmd.M => true
  | _ => false

/-- Count of Load/Store records in a trace. -/
def countLoadStore (trace : List TraceRecord) : Nat := trace.countP is_load_or_store

/-- Count of Modify records in a trace. -/
def countModify (trace : List TraceRecord) : Nat := trace.countP is_modify

/-- No two valid lines of one set hold the same tag (spec.md section 3
invariant). -/
def no_duplicate_tags (st : SimState) : Prop :=
  ∀ si i j, i < (st.cache_memory.getD si []).length →
    j < (st.cache_memory.getD si []).length → i ≠ j →
    ((st.cache_memory.getD si []).getD i d0).is_valid = true →
    ((st.cache_memory.getD si []).getD j d0).is_valid = true →
    ((st.cache_memory.getD si []).getD i d0).tag_value ≠
      ((st.cache_memory.getD si []).getD j d0).tag_value

/-! ### Basic list lemmas used throughout -/

/-- Reading a position of `l.set i e` with a default: the written value at
position `i` when `i` is in range, the old value everywhere else. -/
theorem getD_set {α : Type _} (l : List α) (i j : Nat) (e d : α) :
    (l.set i e).getD j d = if i = j ∧ j < l.length then e else l.getD j d := by
  induction l generalizing i j with
  | nil => simp
  | cons a t ih =>
    cases i with
    | zero =>
      cases j with
      | zero => simp
      | succ j => simp
    | succ i =>
      cases j with
      | zero => simp
      | succ j =>
        simp only [List.set_cons_succ, List.getD_cons_succ, List.length_cons, ih]
        by_cases h : i = j ∧ j < t.length
        · rw [if_pos h, if_pos ⟨by omega, by omega⟩]
        · rw [if_neg h, if_neg (by omega)]

/-- A in-range `getD` read is a member of the list. -/
theorem getD_mem {α : Type _} (l : List α) (i : Nat) (d : α)
    (h : i < l.length) : l.getD i d ∈ l := by
  induction l generalizing i with
  | nil => simp at h
  | cons a t ih =>
    cases i with
    | zero => simp
    | succ i =>
      simp only [List.getD_cons_succ]
      exact List.mem_cons_of_mem a (ih i (by simpa using h))

/-! ### Lemmas about the hit-scan loop -/

/-- The hit scan fails exactly when no line of the group is valid with the
target tag (src/csim.c lines 98-110 falling through to line 113). -/
theorem hitScan_eq_none (tag ctr : Nat) (g : List cache_entry_t) :
    hitScan tag ctr g = none ↔ ∀ e ∈ g, line_matches e tag = false := by
  induction g with
  | nil => simp [hitScan]
  | cons e rest ih =>
    by_cases h : line_matches e tag
    · simp only [hitScan, if_pos h]
      constructor
      · intro hn
        exact absurd hn (by simp)
      · intro hall
        have h0 := hall e (List.mem_cons_self e rest)
        simp [h0] at h
    · have hrw : hitScan tag ctr (e :: rest) = (hitScan tag ctr rest).map (e :: ·) := by
        simp [hitScan, h]
      rw [hrw]
      constructor
      · intro hnone x hx
        rcases List.mem_cons.mp hx with rfl | hx'
        · simpa using h
        · rcases hr : hitScan tag ctr rest with _ | g'
          · exact (ih.mp hr) x hx'
          · rw [hr] at hnone
            exact absurd hnone (by simp)
      · intro hall
        have hrest : hitScan tag ctr rest = none :=
          ih.mpr (fun x hx => hall x (List.mem_cons_of_mem e hx))
        rw [hrest]
        rfl

/-- A successful hit scan returns the group with exactly one line updated:
the first valid line carrying the target tag, its `lru_counter` replaced by
the clock value (src/csim.c lines 98-107). -/
theorem hitScan_eq_some (tag ctr : Nat) (g g' : List cache_entry_t)
    (h : hitScan tag ctr g = some g') :
    ∃ i, i < g.length ∧ line_matches (g.getD i d0) tag = true ∧
      (∀ k, k < i → line_matches (g.getD k d0) tag = false) ∧
      g' = g.set i { g.getD i d0 with lru_counter := ctr } := by
  induction g generalizing g' with
  | nil => simp [hitScan] at h
  | cons e rest ih =>
    by_cases hm : line_matches e tag
    · have hg : g' = { e with lru_counter := ctr } :: rest := by
        simp only [hitScan, if_pos hm, Option.some.injEq] at h
        exact h.symm
      subst hg
      refine ⟨0, by simp, by simpa using hm, ?_, by simp⟩
      intro k hk
      exact absurd hk (Nat.not_lt_zero k)
    · rcases hr : hitScan tag ctr rest with _ | g''
      · rw [show hitScan tag ctr (e :: rest) = none by simp [hitScan, hm, hr]] at h
        exact absurd h (by simp)
      · have hg : g' = e :: g'' := by
          rw [show hitScan tag ctr (e :: rest) = some (e :: g'') by
            simp [hitScan, hm, hr]] at h
          exact (Option.some.inj h).symm
        subst hg
        obtain ⟨i, hi, hmatch, hfirst, hset⟩ := ih g'' hr
        refine ⟨i + 1, by simpa using Nat.succ_lt_succ hi, by simpa using hmatch, ?_, ?_⟩
        · intro k hk
          cases k with
          | zero => simpa using hm
          | succ k => simpa using hfirst k (by omega)
        · simpa using hset

/-- The hit scan succeeds whenever some line of the group is valid with the
target tag. -/
theorem hitScan_isSome (tag ctr : Nat) (g : List cache_entry_t)
    (h : ∃ e ∈ g, line_matches e tag = true) :
    ∃ g', hitScan tag ctr g = some g' := by
  rcases hg : hitScan tag ctr g with _ | g'
  · obtain ⟨e, he, hm⟩ := h
    have := (hitScan_eq_none tag ctr g).mp hg e he
    rw [this] at hm
    exact absurd hm (by simp)
  · exact ⟨g', rfl⟩

/-! ### Lemmas about the victim-selection loop -/

/-- Invariant of the victim-selection loop (src/csim.c lines 116-123): the
final pair either keeps the seeds (and every scanned line is at least the
seed minimum), or it is the first strictly-improving minimum of the scanned
lines, below the seed, minimal among all lines, and strictly below every
earlier line. -/
theorem victimLoop_go (g : List cache_entry_t) : ∀ (i minv idx : Nat),
    ((victimLoop g i minv idx).1 = minv ∧ (victimLoop g i minv idx).2 = idx ∧
      ∀ e ∈ g, minv ≤ e.lru_counter) ∨
    (∃ j, j < g.length ∧
      (victimLoop g i minv idx).1 = (g.getD j d0).lru_counter ∧
      (victimLoop g i minv idx).2 = i + j ∧
      (g.getD j d0).lru_counter < minv ∧
      (∀ k, k < j → (g.getD j d0).lru_counter < (g.getD k d0).lru_counter) ∧
      (∀ e ∈ g, (g.getD j d0).lru_counter ≤ e.lru_counter)) := by
  induction g with
  | nil =>
    intro i minv idx
    left
    exact ⟨rfl, rfl, by simp⟩
  | cons e rest ih =>
    intro i minv idx
    by_cases hc : minv > e.lru_counter
    · rw [show victimLoop (e :: rest) i minv idx = victimLoop rest (i + 1) e.lru_counter i by
        simp [victimLoop, hc]]
      rcases ih (i + 1) e.lru_counter i with ⟨h1, h2, h3⟩ | ⟨j, hj, h1, h2, h3, h4, h5⟩
      · right
        refine ⟨0, by simp, by simpa using h1, by simpa using h2, by simpa using hc, ?_, ?_⟩
        · intro k hk; omega
        · intro x hx
          rcases List.mem_cons.mp hx with rfl | hx
          · simp
          · simpa using h3 x hx
      · right
        refine ⟨j + 1, by simpa using hj, by simpa using h1, by simp [h2]; omega, ?_, ?_, ?_⟩
        · simpa using lt_trans h3 hc
        · intro k hk
          cases k with
          | zero => simpa using h3
          | succ k => simpa using h4 k (by omega)
        · intro x hx
          rcases List.mem_cons.mp hx with rfl | hx
          · simpa using le_of_lt h3
          · simpa using h5 x hx
    · rw [show victimLoop (e :: rest) i minv idx = victimLoop rest (i + 1) minv idx by
        simp [victimLoop, hc]]
      rcases ih (i + 1) minv idx with ⟨h1, h2, h3⟩ | ⟨j, hj, h1, h2, h3, h4, h5⟩
      · left
        refine ⟨h1, h2, ?_⟩
        intro x hx
        rcases List.mem_cons.mp hx with rfl | hx
        · omega
        · exact h3 x hx
      · right
        refine ⟨j + 1, by simpa using hj, by simpa using h1, by simp [h2]; omega,
          by simpa using h3, ?_, ?_⟩
        · intro k hk
          cases k with
          | zero =>
            simp only [List.getD_cons_zero, List.getD_cons_succ]
            omega
          | succ k => simpa using h4 k (by omega)
        · intro x hx
          rcases List.mem_cons.mp hx with rfl | hx
          · simp only [List.getD_cons_succ]
            omega
          · simpa using h5 x hx

/-- The victim index is in range whenever the group is nonempty. -/
theorem victimIndex_lt (g : List cache_entry_t) (hne : 0 < g.length) :
    victimIndex g < g.length := by
  rcases victimLoop_go g 0 ULONG_MAX 0 with ⟨_, h2, _⟩ | ⟨j, hj, _, h2, _, _, _⟩
  · simpa [victimIndex, h2] using hne
  · simpa [victimIndex, h2] using hj

/-- Minimality and tie-breaking of the victim choice: when every line's
recency fits in 64 bits (as `unsigned long long` guarantees in the C code),
the chosen line has the smallest recency of the group and every
lower-indexed line has strictly larger recency. -/
theorem victimIndex_min (g : List cache_entry_t) (hne : 0 < g.length)
    (hbound : ∀ e ∈ g, e.lru_counter ≤ ULONG_MAX) :
    (∀ e ∈ g, (g.getD (victimIndex g) d0).lru_counter ≤ e.lru_counter) ∧
    (∀ k, k < victimIndex g →
      (g.getD (victimIndex g) d0).lru_counter < (g.getD k d0).lru_counter) := by
  rcases victimLoop_go g 0 ULONG_MAX 0 with ⟨h1, h2, h3⟩ | ⟨j, hj, h1, h2, h3, h4, h5⟩
  · have hv : victimIndex g = 0 := h2
    have hmem : g.getD 0 d0 ∈ g := getD_mem g 0 d0 hne
    have hmax : (g.getD 0 d0).lru_counter = ULONG_MAX :=
      le_antisymm (hbound _ hmem) (h3 _ hmem)
    constructor
    · intro e he
      rw [hv, hmax]
      exact h3 e he
    · intro k hk
      rw [hv] at hk
      omega
  · have hv : victimIndex g = j := by simpa [victimIndex] using h2
    rw [hv]
    exact ⟨h5, h4⟩

/-! ### Unfolding lemmas for `access_data` -/

/-- The hit branch of `access_data` (src/csim.c lines 98-107). -/
theorem access_data_hit_eq (st : SimState) (address : Nat) (g' : List cache_entry_t)
    (h : hitScan (tag_of st address) st.global_lru_counter (group_of st address) = some g') :
    access_data st address =
      { st with
        cache_memory := st.cache_memory.set (set_index_of st address) g'
        global_lru_counter := st.global_lru_counter + 1
        total_hits := st.total_hits + 1 } := by
  unfold access_data
  rw [h]

/-- The miss branch of `access_data` (src/csim.c lines 112-133). -/
theorem access_data_miss_eq (st : SimState) (address : Nat)
    (h : hitScan (tag_of st address) st.global_lru_counter (group_of st address) = none) :
    access_data st address =
      { st with
        cache_memory := st.cache_memory.set (set_index_of st address)
          ((group_of st address).set (victimIndex (group_of st address))
            ⟨true, tag_of st address, st.global_lru_counter⟩)
        global_lru_counter := st.global_lru_counter + 1
        total_misses := st.total_misses + 1
        total_evictions := st.total_evictions +
          if ((group_of st address).getD (victimIndex (group_of st address)) d0).is_valid
          then 1 else 0 } := by
  unfold access_data
  rw [h]

/-- Every access is classified as exactly one of hit and miss: the sum of the
two counters grows by one (src/csim.c lines 105 and 113). -/
theorem access_data_classifies (st : SimState) (address : Nat) :
    (access_data st address).total_hits + (access_data st address).total_misses =
      st.total_hits + st.total_misses + 1 := by
  unfold access_data
  rcases hitScan (tag_of st address) st.global_lru_counter (group_of st address) with _ | g'
  · simp; omega
  · simp; omega

/-- The geometry globals are never written by `access_data`. -/
theorem access_data_geometry (st : SimState) (address : Nat) :
    (access_data st address).set_index_bits = st.set_index_bits ∧
    (access_data st address).block_offset_bits = st.block_offset_bits ∧
    (access_data st address).associativity = st.associativity ∧
    (access_data st address).set_index_mask = st.set_index_mask := by
  unfold access_data
  rcases hitScan (tag_of st address) st.global_lru_counter (group_of st address) with _ | g' <;>
    exact ⟨rfl, rfl, rfl, rfl⟩

/-! ### Arithmetic lemmas for the geometry computations -/

/-- Small values pass through the 32-bit signed reinterpretation unchanged. -/
theorem toSigned32_small (m : Nat) (h : m < 2 ^ 31) : toSigned32 m = (m : Int) := by
  unfold toSigned32
  rw [Nat.mod_eq_of_lt (lt_trans h (by norm_num))]
  rw [if_pos h]

/-- Small nonnegative values pass through the cast to `unsigned int`. -/
theorem toUnsigned32_small (m : Nat) (h : m < 2 ^ 32) : toUnsigned32 (m : Int) = m := by
  unfold toUnsigned32
  rw [Int.emod_eq_of_lt (by positivity) (by exact_mod_cast h)]
  simp

/-- Small nonnegative values pass through the cast to `memory_address_t`. -/
theorem toUnsigned64_small (m : Nat) (h : m < 2 ^ 64) : toUnsigned64 (m : Int) = m := by
  unfold toUnsigned64
  rw [Int.emod_eq_of_lt (by positivity) (by exact_mod_cast h)]
  simp

/-- For shifts up to 30 the `pow` macro really computes the power of two. -/
theorem pow_small (n : Nat) (hn : n ≤ 30) : pow n = ((2 ^ n : Nat) : Int) := by
  have h31 : (2 : Nat) ^ n < 2 ^ 31 :=
    lt_of_le_of_lt (Nat.pow_le_pow_right (by omega) hn) (by norm_num)
  unfold pow
  rw [show (1 : Nat) <<< n = 2 ^ n by simp [Nat.shiftLeft_eq]]
  exact toSigned32_small _ h31

/-! ### Claims -/

/-- Claim C7: with geometry `set_index_bits = 1`, `block_offset_bits = 0`,
`associativity = 1`, replaying the trace `L 0,1` then `L 2,1` from a fresh
cache yields hits = 0, misses = 2, evictions = 1; both addresses map to
set 0 and their tags (0 and 1) differ. -/
theorem C7_example_trace :
    ((replay_trace (init_cache 1 0 1 (number_of_sets 1).toNat)
        [⟨TraceCmd.L, 0, 1⟩, ⟨TraceCmd.L, 2, 1⟩]).total_hits = 0 ∧
      (replay_trace (init_cache 1 0 1 (number_of_sets 1).toNat)
        [⟨TraceCmd.L, 0, 1⟩, ⟨TraceCmd.L, 2, 1⟩]).total_misses = 2 ∧
      (replay_trace (init_cache 1 0 1 (number_of_sets 1).toNat)
        [⟨TraceCmd.L, 0, 1⟩, ⟨TraceCmd.L, 2, 1⟩]).total_evictions = 1) ∧
    set_index_of (init_cache 1 0 1 (number_of_sets 1).toNat) 0 = 0 ∧
    set_index_of (init_cache 1 0 1 (number_of_sets 1).toNat) 2 = 0 ∧
    tag_of (init_cache 1 0 1 (number_of_sets 1).toNat) 0 = 0 ∧
    tag_of (init_cache 1 0 1 (number_of_sets 1).toNat) 2 = 1 := by
  decide

/-- Claim C9 counterexample: `set_index_bits = 31` with
`block_offset_bits = 0` is a valid geometry (31 + 0 ≤ 63), yet the computed
`number_of_sets` is the negative 32-bit wraparound value, not `2^31` —
`1 << 31` overflows the 32-bit `int` of the `pow` macro. -/
theorem C9_counterexample :
    (31 : Nat) + 0 ≤ 63 ∧ number_of_sets 31 = -(2 ^ 31) ∧
    number_of_sets 31 ≠ 2 ^ 31 := by
  decide

/-- Claim C9 (amended): for `set_index_bits` and `block_offset_bits` at most
30 — so that `1 << n` fits the 32-bit `int` in which the `pow` macro
evaluates — the derived quantities are exact powers of two:
`number_of_sets = 2^set_index_bits`, `block_size = 2^block_offset_bits`, and
the set-index mask is `2^set_index_bits - 1`. -/
theorem C9_pow_amended (s b : Nat) (hs : s ≤ 30) (hb : b ≤ 30) :
    number_of_sets s = ((2 ^ s : Nat) : Int) ∧
    block_size_bytes b = ((2 ^ b : Nat) : Int) ∧
    set_index_mask_of s = 2 ^ s - 1 := by
  have hlt : ∀ n : Nat, n ≤ 30 → (2 : Nat) ^ n < 2 ^ 31 := fun n hn =>
    lt_of_le_of_lt (Nat.pow_le_pow_right (by omega) hn) (by norm_num)
  refine ⟨?_, ?_, ?_⟩
  · unfold number_of_sets
    rw [pow_small s hs, toUnsigned32_small _ (lt_trans (hlt s hs) (by norm_num)),
      toSigned32_small _ (hlt s hs)]
  · unfold block_size_bytes
    rw [pow_small b hb, toUnsigned32_small _ (lt_trans (hlt b hb) (by norm_num)),
      toSigned32_small _ (hlt b hb)]
  · have hone : (1 : Nat) ≤ 2 ^ s := Nat.one_le_two_pow
    have hcast : ((2 ^ s : Nat) : Int) - 1 = ((2 ^ s - 1 : Nat) : Int) := by omega
    have hsub : (2 : Nat) ^ s - 1 < 2 ^ 31 := by
      have := hlt s hs
      omega
    unfold set_index_mask_of wrap32
    rw [pow_small s hs, hcast,
      Int.emod_eq_of_lt (by positivity) (by exact_mod_cast lt_trans hsub (by norm_num))]
    rw [Int.toNat_natCast, toSigned32_small _ hsub]
    exact toUnsigned64_small _ (lt_trans hsub (by norm_num))

/-- Claim C9 witness: the amended statement at `s = 5`, `b = 3`. -/
theorem C9_pow_amended_witness :
    number_of_sets 5 = ((2 ^ 5 : Nat) : Int) ∧
    block_size_bytes 3 = ((2 ^ 3 : Nat) : Int) ∧
    set_index_mask_of 5 = 2 ^ 5 - 1 :=
  C9_pow_amended 5 3 (by decide) (by decide)

/-- Claim C8 counterexample: geometry `set_index_bits = 32,
block_offset_bits = 32` (bit-width sum 64 > 63) with associativity 1 passes
the only pre-access check of `main` and the simulation proceeds; so does a
negative (hence non-positive) associativity of -1. -/
theorem C8_counterexample :
    (32 + 32 > 63) ∧
    (main_run 32 1 32 true [⟨TraceCmd.L, 0, 1⟩]).isSome = true ∧
    ((-1 : Int) ≤ 0) ∧
    (main_run 4 (-1) 4 true [⟨TraceCmd.L, 0, 1⟩]).isSome = true := by
  decide

/-- Claim C8 (amended): the program stops before any access exactly when a
required command-line argument is missing — one of the three integer
arguments parses to zero, or no trace file is given; negative associativity
and bit-width sums above 63 are not detected. -/
theorem C8_check_amended (s E b : Int) (t : Bool) (trace : List TraceRecord) :
    main_run s E b t trace = none ↔ (s = 0 ∨ E = 0 ∨ b = 0 ∨ t = false) := by
  have hiff : missing_arg_check s E b t = true ↔ (s = 0 ∨ E = 0 ∨ b = 0 ∨ t = false) := by
    simp [missing_arg_check, Bool.or_eq_true, beq_iff_eq, Bool.not_eq_true', or_assoc]
  rw [← hiff]
  unfold main_run
  by_cases hc : missing_arg_check s E b t = true
  · simp [hc]
  · simp [hc]

/-- Claim C8 witness: the amended statement at a concrete missing argument. -/
theorem C8_check_amended_witness :
    main_run 0 1 1 true [] = none ↔
      ((0 : Int) = 0 ∨ (1 : Int) = 0 ∨ (1 : Int) = 0 ∨ true = false) :=
  C8_check_amended 0 1 1 true []

/-- Each record contributes exactly its access count to hits + misses:
one for Load/Store, two for Modify, zero otherwise. -/
theorem replay_trace_sum (trace : List TraceRecord) : ∀ st : SimState,
    (replay_trace st trace).total_hits + (replay_trace st trace).total_misses =
      st.total_hits + st.total_misses + countLoadStore trace + 2 * countModify trace := by
  induction trace with
  | nil =>
    intro st
    simp [replay_trace, countLoadStore, countModify]
  | cons r t ih =>
    intro st
    have hstep : (replay_step st r).total_hits + (replay_step st r).total_misses =
        st.total_hits + st.total_misses +
          (if is_load_or_store r then 1 else 0) + 2 * (if is_modify r then 1 else 0) := by
      rcases hr : r.cmd with _ | _ | _ | _
      · simp only [replay_step, is_load_or_store, is_modify, hr]
        have := access_data_classifies st r.address
        simp
        omega
      · simp only [replay_step, is_load_or_store, is_modify, hr]
        have := access_data_classifies st r.address
        simp
        omega
      · simp only [replay_step, is_load_or_store, is_modify, hr]
        have h1 := access_data_classifies st r.address
        have h2 := access_data_classifies (access_data st r.address) r.address
        simp
        omega
      · simp only [replay_step, is_load_or_store, is_modify, hr]
        simp
    have hrt : replay_trace st (r :: t) = replay_trace (replay_step st r) t := rfl
    rw [hrt, ih (replay_step st r), hstep]
    unfold countLoadStore countModify
    rw [List.countP_cons, List.countP_cons]
    by_cases h1 : is_load_or_store r <;> by_cases h2 : is_modify r <;>
      simp [h1, h2] <;> omega

/-- Claim C5: after replaying any finite record sequence from a freshly
initialized cache, hits + misses equals the number of Load/Store records
plus twice the number of Modify records, and a record of any other kind
leaves the state unchanged. -/
theorem C5_conservation (s b E n : Nat) (trace : List TraceRecord) :
    ((replay_trace (init_cache s b E n) trace).total_hits +
      (replay_trace (init_cache s b E n) trace).total_misses =
        countLoadStore trace + 2 * countModify trace) ∧
    (∀ (st : SimState) (a : Nat) (sz : Int),
      replay_step st ⟨TraceCmd.other, a, sz⟩ = st) := by
  constructor
  · have h := replay_trace_sum trace (init_cache s b E n)
    simpa [init_cache] using h
  · intro st a sz
    rfl

/-- Claim C5 witness: conservation on a concrete mixed trace. -/
theorem C5_conservation_witness :
    ((replay_trace (init_cache 1 0 1 2)
        [⟨TraceCmd.L, 0, 1⟩, ⟨TraceCmd.M, 2, 1⟩, ⟨TraceCmd.other, 4, 1⟩]).total_hits +
      (replay_trace (init_cache 1 0 1 2)
        [⟨TraceCmd.L, 0, 1⟩, ⟨TraceCmd.M, 2, 1⟩, ⟨TraceCmd.other, 4, 1⟩]).total_misses =
        countLoadStore [⟨TraceCmd.L, 0, 1⟩, ⟨TraceCmd.M, 2, 1⟩, ⟨TraceCmd.other, 4, 1⟩] +
          2 * countModify [⟨TraceCmd.L, 0, 1⟩, ⟨TraceCmd.M, 2, 1⟩, ⟨TraceCmd.other, 4, 1⟩]) ∧
    (∀ (st : SimState) (a : Nat) (sz : Int),
      replay_step st ⟨TraceCmd.other, a, sz⟩ = st) :=
  C5_conservation 1 0 1 2
    [⟨TraceCmd.L, 0, 1⟩, ⟨TraceCmd.M, 2, 1⟩, ⟨TraceCmd.other, 4, 1⟩]

/-- Adding the indicator of a boolean: the sum grows by one exactly when the
boolean holds. -/
theorem add_ite_one (n : Nat) (c : Bool) :
    (n + (if c then 1 else 0) = n + 1 ↔ c = true) ∧
    (c = false → n + (if c then 1 else 0) = n) := by
  cases c <;> simp

/-- Claim C3: on every miss the miss counter is incremented, and the eviction
counter is incremented exactly when the selected victim line was valid at the
moment of selection; a miss that fills an invalid line leaves the eviction
counter unchanged. -/
theorem C3_eviction_iff (st : SimState) (address : Nat)
    (hmiss : hitScan (tag_of st address) st.global_lru_counter (group_of st address) = none) :
    (access_data st address).total_misses = st.total_misses + 1 ∧
    ((access_data st address).total_evictions = st.total_evictions + 1 ↔
      ((group_of st address).getD (victimIndex (group_of st address)) d0).is_valid = true) ∧
    (((group_of st address).getD (victimIndex (group_of st address)) d0).is_valid = false →
      (access_data st address).total_evictions = st.total_evictions) := by
  rw [access_data_miss_eq st address hmiss]
  exact ⟨rfl, (add_ite_one st.total_evictions _).1, (add_ite_one st.total_evictions _).2⟩

/-- Claim C3 witness: a cold miss fills an invalid line without eviction. -/
theorem C3_eviction_iff_witness :
    (access_data (init_cache 1 0 1 2) 0).total_misses =
      (init_cache 1 0 1 2).total_misses + 1 :=
  (C3_eviction_iff (init_cache 1 0 1 2) 0 (by decide)).1

/-! ### Further helpers for the remaining claims -/

/-- The hit test in propositional form. -/
theorem line_matches_iff (e : cache_entry_t) (t : Nat) :
    line_matches e t = true ↔ e.is_valid = true ∧ e.tag_value = t := by
  simp [line_matches, Bool.and_eq_true, beq_iff_eq]

/-- A valid line that fails the hit test has a different tag. -/
theorem line_not_match (e : cache_entry_t) (t : Nat) (h : line_matches e t = false)
    (hv : e.is_valid = true) : e.tag_value ≠ t := by
  intro ht
  have := (line_matches_iff e t).mpr ⟨hv, ht⟩
  rw [this] at h
  exact absurd h (by decide)

/-- `getD` on a replicated list. -/
theorem getD_replicate {α : Type _} (n i : Nat) (x d : α) :
    (List.replicate n x).getD i d = if i < n then x else d := by
  induction n generalizing i with
  | zero => simp
  | succ n ih =>
    cases i with
    | zero => simp [List.replicate_succ]
    | succ i =>
      rw [List.replicate_succ, List.getD_cons_succ, ih]
      by_cases h : i < n
      · rw [if_pos h, if_pos (by omega)]
      · rw [if_neg h, if_neg (by omega)]

/-- Updating one group of the cache table keeps every group's length when the
replacement group has the same length. -/
theorem getD_set_length (M : List (List cache_entry_t)) (sidx : Nat)
    (g : List cache_entry_t) (hg : g.length = (M.getD sidx []).length) (si : Nat) :
    ((M.set sidx g).getD si []).length = (M.getD si []).length := by
  rw [getD_set]
  by_cases h1 : sidx = si ∧ si < M.length
  · rw [if_pos h1, hg, h1.1]
  · rw [if_neg h1]

/-- Writing one line of one group leaves every other position of the cache
table unchanged. -/
theorem frame_pointwise (M : List (List cache_entry_t)) (sidx i : Nat)
    (e' : cache_entry_t) (si li : Nat) (hne : si ≠ sidx ∨ li ≠ i) :
    ((M.set sidx ((M.getD sidx []).set i e')).getD si []).getD li d0 =
      (M.getD si []).getD li d0 := by
  rw [getD_set]
  by_cases h1 : sidx = si ∧ si < M.length
  · rw [if_pos h1]
    obtain ⟨h1a, _⟩ := h1
    subst h1a
    rw [getD_set]
    by_cases h2 : i = li ∧ li < (M.getD sidx []).length
    · rcases hne with hne | hne
      · exact absurd rfl hne
      · exact absurd h2.1.symm hne
    · rw [if_neg h2]
  · rw [if_neg h1]

/-- The hit update (a new `lru_counter` on the matched line) preserves the
valid bit and the tag of every position of the cache table. -/
theorem hit_update_pointwise (M : List (List cache_entry_t)) (sidx i ctr si li : Nat) :
    ((((M.set sidx ((M.getD sidx []).set i
          { (M.getD sidx []).getD i d0 with lru_counter := ctr })).getD si []).getD li
            d0).is_valid =
        ((M.getD si []).getD li d0).is_valid) ∧
    ((((M.set sidx ((M.getD sidx []).set i
          { (M.getD sidx []).getD i d0 with lru_counter := ctr })).getD si []).getD li
            d0).tag_value =
        ((M.getD si []).getD li d0).tag_value) := by
  rw [getD_set]
  by_cases h1 : sidx = si ∧ si < M.length
  · rw [if_pos h1]
    obtain ⟨h1a, _⟩ := h1
    subst h1a
    rw [getD_set]
    by_cases h2 : i = li ∧ li < (M.getD sidx []).length
    · rw [if_pos h2]
      obtain ⟨h2a, _⟩ := h2
      subst h2a
      exact ⟨rfl, rfl⟩
    · rw [if_neg h2]
      exact ⟨rfl, rfl⟩
  · rw [if_neg h1]
    exact ⟨rfl, rfl⟩

/-- The geometry of an access target is unchanged by the access: same tag. -/
theorem tag_of_access (st : SimState) (address a : Nat) :
    tag_of (access_data st address) a = tag_of st a := by
  obtain ⟨h1, h2, _, _⟩ := access_data_geometry st address
  unfold tag_of
  rw [h1, h2]

/-- The geometry of an access target is unchanged by the access: same set. -/
theorem set_index_of_access (st : SimState) (address a : Nat) :
    set_index_of (access_data st address) a = set_index_of st a := by
  obtain ⟨_, h2, _, h4⟩ := access_data_geometry st address
  unfold set_index_of
  rw [h2, h4]

/-- When the scan hits, the target set is a real (in-range) row of the
table. -/
theorem set_in_range_of_hit (st : SimState) (address : Nat) (g' : List cache_entry_t)
    (h : hitScan (tag_of st address) st.global_lru_counter (group_of st address) = some g') :
    set_index_of st address < st.cache_memory.length := by
  by_contra hge
  have hempty : group_of st address = [] := by
    unfold group_of
    exact List.getD_eq_default _ _ (by omega)
  rw [hempty] at h
  exact absurd h (by simp [hitScan])

/-- The cache memory after a hit. -/
theorem access_data_hit_memory (st : SimState) (address : Nat) (g' : List cache_entry_t)
    (h : hitScan (tag_of st address) st.global_lru_counter (group_of st address) = some g') :
    (access_data st address).cache_memory =
      st.cache_memory.set (set_index_of st address) g' := by
  rw [access_data_hit_eq st address g' h]

/-- The cache memory after a miss. -/
theorem access_data_miss_memory (st : SimState) (address : Nat)
    (h : hitScan (tag_of st address) st.global_lru_counter (group_of st address) = none) :
    (access_data st address).cache_memory =
      st.cache_memory.set (set_index_of st address)
        ((group_of st address).set (victimIndex (group_of st address))
          ⟨true, tag_of st address, st.global_lru_counter⟩) := by
  rw [access_data_miss_eq st address h]

/-- On a miss against an in-range set, the target group of the same address
after the access is the old group with the victim overwritten. -/
theorem group_of_access_miss (st : SimState) (address : Nat)
    (hscan : hitScan (tag_of st address) st.global_lru_counter (group_of st address) = none)
    (hrange : set_index_of st address < st.cache_memory.length) :
    group_of (access_data st address) address =
      (group_of st address).set (victimIndex (group_of st address))
        ⟨true, tag_of st address, st.global_lru_counter⟩ := by
  unfold group_of
  rw [set_index_of_access, access_data_miss_memory st address hscan, getD_set,
    if_pos ⟨rfl, hrange⟩]
  rfl

/-- On a hit, the target group of the same address after the access is the
group returned by the scan. -/
theorem group_of_access_hit (st : SimState) (address : Nat) (g' : List cache_entry_t)
    (hscan : hitScan (tag_of st address) st.global_lru_counter (group_of st address) = some g') :
    group_of (access_data st address) address = g' := by
  unfold group_of
  rw [set_index_of_access, access_data_hit_memory st address g' hscan, getD_set,
    if_pos ⟨rfl, set_in_range_of_hit st address g' hscan⟩]

/-- After any access, the target set of the same address contains a valid
line with the address's tag (the line the access touched or installed). -/
theorem access_installs (st : SimState) (address : Nat)
    (hne : 0 < (group_of st address).length) :
    ∃ e ∈ group_of (access_data st address) address,
      e.is_valid = true ∧ e.tag_value = tag_of (access_data st address) address := by
  rw [tag_of_access]
  rcases hscan : hitScan (tag_of st address) st.global_lru_counter (group_of st address)
    with _ | g'
  · have hvlt := victimIndex_lt _ hne
    have hrange : set_index_of st address < st.cache_memory.length := by
      by_contra hge
      have hempty : group_of st address = [] :=
        List.getD_eq_default _ _ (by omega)
      rw [hempty] at hne
      exact absurd hne (by simp)
    rw [group_of_access_miss st address hscan hrange]
    refine ⟨⟨true, tag_of st address, st.global_lru_counter⟩, ?_, rfl, rfl⟩
    have hg : ((group_of st address).set (victimIndex (group_of st address))
        ⟨true, tag_of st address, st.global_lru_counter⟩).getD
          (victimIndex (group_of st address)) d0 =
        ⟨true, tag_of st address, st.global_lru_counter⟩ := by
      rw [getD_set, if_pos ⟨rfl, hvlt⟩]
    have hmem := getD_mem ((group_of st address).set (victimIndex (group_of st address))
        ⟨true, tag_of st address, st.global_lru_counter⟩)
      (victimIndex (group_of st address)) d0 (by rw [List.length_set]; exact hvlt)
    rw [hg] at hmem
    exact hmem
  · obtain ⟨k, hk, hkm, _, hset⟩ := hitScan_eq_some _ _ _ _ hscan
    rw [group_of_access_hit st address g' hscan, hset]
    obtain ⟨hv, ht⟩ := (line_matches_iff _ _).mp hkm
    refine ⟨{ (group_of st address).getD k d0 with lru_counter := st.global_lru_counter },
      ?_, hv, ht⟩
    have hg : ((group_of st address).set k { (group_of st address).getD k d0 with
        lru_counter := st.global_lru_counter }).getD k d0 =
        { (group_of st address).getD k d0 with lru_counter := st.global_lru_counter } := by
      rw [getD_set, if_pos ⟨rfl, hk⟩]
    have hmem := getD_mem ((group_of st address).set k { (group_of st address).getD k d0 with
        lru_counter := st.global_lru_counter }) k d0 (by rw [List.length_set]; exact hk)
    rw [hg] at hmem
    exact hmem

/-- Claim C1: on a miss, the victim is the line of the target set with the
strictly smallest recency among all its lines, valid or not; ties go to the
lowest index; when invalid lines carry recency 0 and valid lines positive
recency, an invalid line (if one exists) is always chosen before any valid
line; and the miss overwrites exactly that line. -/
theorem C1_lru_victim (st : SimState) (address : Nat)
    (hmiss : hitScan (tag_of st address) st.global_lru_counter (group_of st address) = none)
    (hne : 0 < (group_of st address).length)
    (hbound : ∀ e ∈ group_of st address, e.lru_counter ≤ ULONG_MAX) :
    victimIndex (group_of st address) < (group_of st address).length ∧
    (∀ e ∈ group_of st address,
      ((group_of st address).getD (victimIndex (group_of st address)) d0).lru_counter ≤
        e.lru_counter) ∧
    (∀ k, k < victimIndex (group_of st address) →
      ((group_of st address).getD (victimIndex (group_of st address)) d0).lru_counter <
        ((group_of st address).getD k d0).lru_counter) ∧
    ((∀ e ∈ group_of st address,
        (e.is_valid = false → e.lru_counter = 0) ∧ (e.is_valid = true → 1 ≤ e.lru_counter)) →
      (∃ e ∈ group_of st address, e.is_valid = false) →
      ((group_of st address).getD (victimIndex (group_of st address)) d0).is_valid = false) ∧
    (access_data st address).cache_memory =
      st.cache_memory.set (set_index_of st address)
        ((group_of st address).set (victimIndex (group_of st address))
          ⟨true, tag_of st address, st.global_lru_counter⟩) := by
  obtain ⟨hmin, htie⟩ := victimIndex_min _ hne hbound
  refine ⟨victimIndex_lt _ hne, hmin, htie, ?_, access_data_miss_memory st address hmiss⟩
  rintro hinv ⟨e, he, hev⟩
  have he0 : e.lru_counter = 0 := (hinv e he).1 hev
  have hv0 : ((group_of st address).getD (victimIndex (group_of st address)) d0).lru_counter
      = 0 := by
    have := hmin e he
    omega
  by_contra hvv
  have hvmem := getD_mem (group_of st address) (victimIndex (group_of st address)) d0
    (victimIndex_lt _ hne)
  have hvv' : ((group_of st address).getD (victimIndex (group_of st address)) d0).is_valid
      = true := by
    simpa using hvv
  have := (hinv _ hvmem).2 hvv'
  omega

/-- Claim C1 witness: the victim of a cold miss on a 2-way set is in range. -/
theorem C1_lru_victim_witness :
    victimIndex (group_of (init_cache 1 0 2 2) 0) < (group_of (init_cache 1 0 2 2) 0).length :=
  (C1_lru_victim (init_cache 1 0 2 2) 0 (by decide) (by decide) (by decide)).1

/-- Claim C2: an access whose set-and-tag decomposition matches a valid line
with equal tag in the target set is a hit: a matching line's recency is set
to the next value of the global logical clock (post-increment), the hit
counter grows by one, and no line's valid/tag fields and no miss or eviction
counter change. -/
theorem C2_hit (st : SimState) (address : Nat)
    (hmatch : ∃ e ∈ group_of st address,
      e.is_valid = true ∧ e.tag_value = tag_of st address) :
    (access_data st address).total_hits = st.total_hits + 1 ∧
    (access_data st address).total_misses = st.total_misses ∧
    (access_data st address).total_evictions = st.total_evictions ∧
    (access_data st address).global_lru_counter = st.global_lru_counter + 1 ∧
    (∃ i, i < (group_of st address).length ∧
      ((group_of st address).getD i d0).is_valid = true ∧
      ((group_of st address).getD i d0).tag_value = tag_of st address ∧
      (access_data st address).cache_memory =
        st.cache_memory.set (set_index_of st address)
          ((group_of st address).set i
            { (group_of st address).getD i d0 with
              lru_counter := st.global_lru_counter })) ∧
    (∀ si li,
      (((access_data st address).cache_memory.getD si []).getD li d0).is_valid =
        ((st.cache_memory.getD si []).getD li d0).is_valid ∧
      (((access_data st address).cache_memory.getD si []).getD li d0).tag_value =
        ((st.cache_memory.getD si []).getD li d0).tag_value) := by
  obtain ⟨e, he, hv, ht⟩ := hmatch
  obtain ⟨g', hg'⟩ := hitScan_isSome (tag_of st address) st.global_lru_counter _
    ⟨e, he, (line_matches_iff _ _).mpr ⟨hv, ht⟩⟩
  obtain ⟨i, hi, him, _, hset⟩ := hitScan_eq_some _ _ _ _ hg'
  obtain ⟨hiv, hit⟩ := (line_matches_iff _ _).mp him
  have hmem := access_data_hit_memory st address g' hg'
  rw [access_data_hit_eq st address g' hg']
  refine ⟨rfl, rfl, rfl, rfl, ⟨i, hi, hiv, hit, by rw [hset]⟩, ?_⟩
  intro si li
  rw [hset]
  exact hit_update_pointwise st.cache_memory (set_index_of st address) i
    st.global_lru_counter si li

/-- Claim C2 witness: repeating the same address turns the second access
into a hit. -/
theorem C2_hit_witness :
    (access_data (access_data (init_cache 1 0 1 2) 0) 0).total_hits =
      (access_data (init_cache 1 0 1 2) 0).total_hits + 1 :=
  (C2_hit (access_data (init_cache 1 0 1 2) 0) 0 (by decide)).1

/-- Every access either hits (hits + 1, misses unchanged) or misses
(misses + 1, hits unchanged). -/
theorem access_data_counters (st : SimState) (address : Nat) :
    ((access_data st address).total_hits = st.total_hits + 1 ∧
      (access_data st address).total_misses = st.total_misses) ∨
    ((access_data st address).total_hits = st.total_hits ∧
      (access_data st address).total_misses = st.total_misses + 1) := by
  rcases hscan : hitScan (tag_of st address) st.global_lru_counter (group_of st address)
    with _ | g'
  · right
    rw [access_data_miss_eq st address hscan]
    exact ⟨rfl, rfl⟩
  · left
    rw [access_data_hit_eq st address g' hscan]
    exact ⟨rfl, rfl⟩

/-- Claim C4: a Modify record issues exactly two sequential accesses to the
same address, and the second access is never a miss: a Modify contributes
hit+hit or miss+hit to the counters, never two misses, because the first
access installs the tag before the second runs. -/
theorem C4_modify (st : SimState) (r : TraceRecord)
    (hM : r.cmd = TraceCmd.M)
    (hne : 0 < (group_of st r.address).length) :
    replay_step st r = access_data (access_data st r.address) r.address ∧
    (replay_step st r).total_hits = (access_data st r.address).total_hits + 1 ∧
    (replay_step st r).total_misses = (access_data st r.address).total_misses ∧
    (replay_step st r).total_hits + (replay_step st r).total_misses =
      st.total_hits + st.total_misses + 2 ∧
    (replay_step st r).total_misses ≤ st.total_misses + 1 := by
  have hrs : replay_step st r = access_data (access_data st r.address) r.address := by
    simp [replay_step, hM]
  obtain ⟨e, he, hev, het⟩ := access_installs st r.address hne
  obtain ⟨g2, hg2⟩ := hitScan_isSome (tag_of (access_data st r.address) r.address)
    (access_data st r.address).global_lru_counter _
    ⟨e, he, (line_matches_iff _ _).mpr ⟨hev, het⟩⟩
  have h2 := access_data_hit_eq (access_data st r.address) r.address g2 hg2
  have ha : (replay_step st r).total_hits = (access_data st r.address).total_hits + 1 := by
    rw [hrs, h2]
  have hb : (replay_step st r).total_misses = (access_data st r.address).total_misses := by
    rw [hrs, h2]
  rcases access_data_counters st r.address with ⟨hh, hm⟩ | ⟨hh, hm⟩ <;>
    exact ⟨hrs, ha, hb, by omega, by omega⟩

/-- Claim C4 witness: a Modify record on a cold cache yields miss + hit. -/
theorem C4_modify_witness :
    (replay_step (init_cache 1 0 1 2) ⟨TraceCmd.M, 0, 1⟩).total_hits =
      (access_data (init_cache 1 0 1 2) 0).total_hits + 1 :=
  (C4_modify (init_cache 1 0 1 2) ⟨TraceCmd.M, 0, 1⟩ rfl (by decide)).2.1

/-- One set update by a miss preserves pairwise tag distinctness of valid
lines in the updated group, given that no line of the old group matched. -/
theorem no_dup_group_update (G : List cache_entry_t) (tagv ctr v : Nat)
    (hnone : ∀ e ∈ G, line_matches e tagv = false)
    (hpair : ∀ i j, i < G.length → j < G.length → i ≠ j →
      (G.getD i d0).is_valid = true → (G.getD j d0).is_valid = true →
      (G.getD i d0).tag_value ≠ (G.getD j d0).tag_value) :
    ∀ i j, i < (G.set v ⟨true, tagv, ctr⟩).length → j < (G.set v ⟨true, tagv, ctr⟩).length →
      i ≠ j →
      ((G.set v ⟨true, tagv, ctr⟩).getD i d0).is_valid = true →
      ((G.set v ⟨true, tagv, ctr⟩).getD j d0).is_valid = true →
      ((G.set v ⟨true, tagv, ctr⟩).getD i d0).tag_value ≠
        ((G.set v ⟨true, tagv, ctr⟩).getD j d0).tag_value := by
  intro i j hi hj hij hvi hvj
  rw [List.length_set] at hi hj
  simp only [getD_set] at hvi hvj ⊢
  by_cases hiv : v = i ∧ i < G.length
  · rw [if_pos hiv] at hvi ⊢
    by_cases hjv : v = j ∧ j < G.length
    · exact absurd (hiv.1.symm.trans hjv.1) hij
    · rw [if_neg hjv] at hvj ⊢
      have hmem := getD_mem G j d0 hj
      intro heq
      exact line_not_match _ _ (hnone _ hmem) hvj heq.symm
  · rw [if_neg hiv] at hvi ⊢
    by_cases hjv : v = j ∧ j < G.length
    · rw [if_pos hjv] at hvj ⊢
      have hmem := getD_mem G i d0 hi
      exact line_not_match _ _ (hnone _ hmem) hvi
    · rw [if_neg hjv] at hvj ⊢
      exact hpair i j hi hj hij hvi hvj

/-- The invariant holds on the freshly initialized cache. -/
theorem no_duplicate_tags_init (s b E n : Nat) : no_duplicate_tags (init_cache s b E n) := by
  intro si i j hi hj hij hvi hvj
  exfalso
  have hentry : ((init_cache s b E n).cache_memory.getD si []).getD i d0 = d0 := by
    show ((List.replicate n (List.replicate E d0)).getD si []).getD i d0 = d0
    rw [getD_replicate]
    by_cases h : si < n
    · rw [if_pos h, getD_replicate]
      by_cases h2 : i < E
      · rw [if_pos h2]
      · rw [if_neg h2]
    · rw [if_neg h]
      rfl
  rw [hentry] at hvi
  exact absurd hvi (by decide)

/-- One access preserves the invariant. -/
theorem no_duplicate_tags_access (st : SimState) (address : Nat)
    (h : no_duplicate_tags st) : no_duplicate_tags (access_data st address) := by
  rcases hscan : hitScan (tag_of st address) st.global_lru_counter (group_of st address)
    with _ | g'
  · -- miss: a fresh tag is installed at the victim position of the target set
    intro si i j hi hj hij hvi hvj
    rw [access_data_miss_memory st address hscan] at hi hj hvi hvj ⊢
    have hnone := (hitScan_eq_none _ _ _).mp hscan
    rw [getD_set] at hi hj hvi hvj ⊢
    by_cases hsi : set_index_of st address = si ∧ si < st.cache_memory.length
    · rw [if_pos hsi] at hi hj hvi hvj ⊢
      obtain ⟨hsia, _⟩ := hsi
      have hG : group_of st address = st.cache_memory.getD si [] := by
        rw [← hsia]
        rfl
      refine no_dup_group_update (group_of st address) (tag_of st address)
        st.global_lru_counter (victimIndex (group_of st address)) hnone ?_ i j hi hj hij hvi hvj
      intro i' j' hi' hj' hij' hvi' hvj'
      rw [hG] at hvi' hvj' ⊢
      exact h si i' j' (hG ▸ hi') (hG ▸ hj') hij' hvi' hvj'
    · rw [if_neg hsi] at hi hj hvi hvj ⊢
      exact h si i j hi hj hij hvi hvj
  · -- hit: valid bits and tags are unchanged everywhere
    obtain ⟨k, hk, _, _, hset⟩ := hitScan_eq_some _ _ _ _ hscan
    intro si i j hi hj hij hvi hvj
    rw [access_data_hit_memory st address g' hscan, hset] at hi hj hvi hvj ⊢
    rw [show group_of st address = st.cache_memory.getD (set_index_of st address) [] from rfl]
      at hi hj hvi hvj ⊢
    have hlen : ((st.cache_memory.set (set_index_of st address)
        ((st.cache_memory.getD (set_index_of st address) []).set k
          { (st.cache_memory.getD (set_index_of st address) []).getD k d0 with
            lru_counter := st.global_lru_counter })).getD si []).length =
        (st.cache_memory.getD si []).length :=
      getD_set_length st.cache_memory (set_index_of st address) _
        (by rw [List.length_set]) si
    rw [hlen] at hi hj
    have hpi := hit_update_pointwise st.cache_memory (set_index_of st address) k
      st.global_lru_counter si i
    have hpj := hit_update_pointwise st.cache_memory (set_index_of st address) k
      st.global_lru_counter si j
    rw [hpi.1] at hvi
    rw [hpj.1] at hvj
    rw [hpi.2, hpj.2]
    exact h si i j hi hj hij hvi hvj

/-- Claim C6: in every state reachable from the initialized cache by any
sequence of accesses, no two valid lines of one set hold the same tag. -/
theorem C6_no_dup_tags (s b E n : Nat) (addrs : List Nat) :
    no_duplicate_tags (addrs.foldl access_data (init_cache s b E n)) := by
  have hfold : ∀ (t : List Nat) (st : SimState), no_duplicate_tags st →
      no_duplicate_tags (t.foldl access_data st) := by
    intro t
    induction t with
    | nil => exact fun st hst => hst
    | cons a t' ih =>
      exact fun st hst => ih (access_data st a) (no_duplicate_tags_access st a hst)
  exact hfold addrs (init_cache s b E n) (no_duplicate_tags_init s b E n)

/-- Claim C6 witness: the invariant after a concrete access sequence. -/
theorem C6_no_dup_tags_witness :
    no_duplicate_tags ([0, 2, 4, 2].foldl access_data (init_cache 1 0 2 2)) :=
  C6_no_dup_tags 1 0 2 2 [0, 2, 4, 2]

/-- Claim C10: a single access modifies at most one cache line, and that line
lies in the set selected by the address's set-index bits; every line of every
other set, the table shape, and the geometry parameters are unchanged. -/
theorem C10_frame (st : SimState) (address : Nat) :
    (access_data st address).set_index_bits = st.set_index_bits ∧
    (access_data st address).block_offset_bits = st.block_offset_bits ∧
    (access_data st address).associativity = st.associativity ∧
    (access_data st address).set_index_mask = st.set_index_mask ∧
    (access_data st address).cache_memory.length = st.cache_memory.length ∧
    (∀ si, ((access_data st address).cache_memory.getD si []).length =
      (st.cache_memory.getD si []).length) ∧
    ∃ i, ∀ si li, si ≠ set_index_of st address ∨ li ≠ i →
      ((access_data st address).cache_memory.getD si []).getD li d0 =
        (st.cache_memory.getD si []).getD li d0 := by
  obtain ⟨h1, h2, h3, h4⟩ := access_data_geometry st address
  rcases hscan : hitScan (tag_of st address) st.global_lru_counter (group_of st address)
    with _ | g'
  · have hmem := access_data_miss_memory st address hscan
    refine ⟨h1, h2, h3, h4, by rw [hmem, List.length_set], ?_, ?_⟩
    · intro si
      rw [hmem]
      exact getD_set_length st.cache_memory (set_index_of st address) _
        (by rw [List.length_set]; rfl) si
    · refine ⟨victimIndex (group_of st address), ?_⟩
      intro si li hne
      rw [hmem]
      exact frame_pointwise st.cache_memory (set_index_of st address)
        (victimIndex (group_of st address)) _ si li hne
  · obtain ⟨k, hk, _, _, hset⟩ := hitScan_eq_some _ _ _ _ hscan
    have hmem := access_data_hit_memory st address g' hscan
    rw [hset] at hmem
    refine ⟨h1, h2, h3, h4, by rw [hmem, List.length_set], ?_, ?_⟩
    · intro si
      rw [hmem]
      exact getD_set_length st.cache_memory (set_index_of st address) _
        (by rw [List.length_set]; rfl) si
    · refine ⟨k, ?_⟩
      intro si li hne
      rw [hmem]
      exact frame_pointwise st.cache_memory (set_index_of st address) k _ si li hne

/-- Claim C10 witness: the frame property at a concrete access. -/
theorem C10_frame_witness :
    (access_data (init_cache 1 0 2 2) 2).set_index_bits =
      (init_cache 1 0 2 2).set_index_bits :=
  (C10_frame (init_cache 1 0 2 2) 2).1

/-- Recency/validity discipline: the global clock is positive, invalid lines
carry recency 0, and valid lines carry positive recency. -/
def lru_discipline (st : SimState) : Prop :=
  1 ≤ st.global_lru_counter ∧
  ∀ si, ∀ e ∈ st.cache_memory.getD si [],
    (e.is_valid = false → e.lru_counter = 0) ∧ (e.is_valid = true → 1 ≤ e.lru_counter)

/-- The discipline holds on the freshly initialized cache. -/
theorem lru_discipline_init (s b E n : Nat) : lru_discipline (init_cache s b E n) := by
  refine ⟨by exact Nat.le_refl 1, ?_⟩
  intro si e he
  have he' : e ∈ (List.replicate n (List.replicate E d0)).getD si [] := he
  rw [getD_replicate] at he'
  by_cases h : si < n
  · rw [if_pos h] at he'
    have := List.eq_of_mem_replicate he'
    subst this
    exact ⟨fun _ => rfl, fun hv => absurd hv (by decide)⟩
  · rw [if_neg h] at he'
    exact absurd he' (by simp)

/-- One access preserves the discipline. -/
theorem lru_discipline_access (st : SimState) (address : Nat)
    (h : lru_discipline st) : lru_discipline (access_data st address) := by
  obtain ⟨hctr, hlines⟩ := h
  rcases hscan : hitScan (tag_of st address) st.global_lru_counter (group_of st address)
    with _ | g'
  · refine ⟨?_, ?_⟩
    · rw [access_data_miss_eq st address hscan]
      show 1 ≤ st.global_lru_counter + 1
      omega
    · intro si e he
      rw [access_data_miss_memory st address hscan, getD_set] at he
      by_cases hsi : set_index_of st address = si ∧ si < st.cache_memory.length
      · rw [if_pos hsi] at he
        rcases List.mem_or_eq_of_mem_set he with he' | rfl
        · exact hlines (set_index_of st address) e he'
        · refine ⟨fun hf => ?_, fun _ => hctr⟩
          have hf' : true = false := hf
          exact absurd hf' (by decide)
      · rw [if_neg hsi] at he
        exact hlines si e he
  · obtain ⟨k, hk, hkm, _, hset⟩ := hitScan_eq_some _ _ _ _ hscan
    refine ⟨?_, ?_⟩
    · rw [access_data_hit_eq st address g' hscan]
      show 1 ≤ st.global_lru_counter + 1
      omega
    · intro si e he
      rw [access_data_hit_memory st address g' hscan, hset, getD_set] at he
      by_cases hsi : set_index_of st address = si ∧ si < st.cache_memory.length
      · rw [if_pos hsi] at he
        rcases List.mem_or_eq_of_mem_set he with he' | rfl
        · exact hlines (set_index_of st address) e he'
        · obtain ⟨hv, _⟩ := (line_matches_iff _ _).mp hkm
          refine ⟨fun hf => ?_, fun _ => hctr⟩
          have hf' : ((group_of st address).getD k d0).is_valid = false := hf
          rw [hv] at hf'
          exact absurd hf' (by decide)
      · rw [if_neg hsi] at he
        exact hlines si e he

/-- The discipline assumed in claim C1 holds in every state reachable from
the initialized cache — invalid lines keep recency 0, valid lines have
positive recency. -/
theorem lru_discipline_foldl (s b E n : Nat) (addrs : List Nat) :
    lru_discipline (addrs.foldl access_data (init_cache s b E n)) := by
  have hfold : ∀ (t : List Nat) (st : SimState), lru_discipline st →
      lru_discipline (t.foldl access_data st) := by
    intro t
    induction t with
    | nil => exact fun st hst => hst
    | cons a t' ih =>
      exact fun st hst => ih (access_data st a) (lru_discipline_access st a hst)
  exact hfold addrs (init_cache s b E n) (lru_discipline_init s b E n)

end Csim
